import Mathlib

/-
  Verification development for the ulc-codec encoder core.

  The C sources are shallowly embedded:
  * 32-bit float arithmetic is modelled over ℝ (transcendental functions via
    Real.exp / Real.log / Real.sqrt); quantities that the C code keeps in
    integer registers are modelled over ℕ / ℤ.
  * Float constants written in C hex-float notation are carried over as the
    exact dyadic rationals they denote
    (e.g. 0x1.BA18AAp1f = 28973226 / 2^23).
  * lrintf (round to nearest, ties to even, the IEEE default mode) is
    modelled by rndNE below.
-/

namespace ULC

open Classical in
/-- Round to nearest with ties to even, the semantics of C's lrintf under the
default FE_TONEAREST rounding mode. -/
noncomputable def rndNE (x : ℝ) : ℤ :=
  if Int.fract x = 1 / 2 then (if Even ⌊x⌋ then ⌊x⌋ else ⌊x⌋ + 1) else round x

/-! ### ulcHelper.h : companded quantizers -/

/-- Embedding of `ULC_CompandedQuantizeUnsigned` (ulchelper.h):
`return (v >= 0.5f) ? (int)lrintf(sqrtf(v - 0.25f)) : 0;`. -/
noncomputable def ULC_CompandedQuantizeUnsigned (v : ℝ) : ℤ :=
  if 1 / 2 ≤ v then rndNE (Real.sqrt (v - 1 / 4)) else 0

/-- Embedding of `ULC_CompandedQuantizeCoefficientUnsigned` (ulchelper.h):
the companded quantizer clamped to `Limit`. -/
noncomputable def ULC_CompandedQuantizeCoefficientUnsigned (v : ℝ) (Limit : ℤ) : ℤ :=
  let vq := ULC_CompandedQuantizeUnsigned v
  if vq < Limit then vq else Limit

/-! ### ulcHelper.h : sub-block decimation patterns -/

/-- The 16-entry decimation pattern table of `ULC_SubBlockDecimationPattern`
(ulchelper.h).  Each sub-block is one nibble, LSB first: bits 0-2 the shift
(sub-block size is `BlockSize >> shift`), bit 3 the transient flag. -/
def ULC_SubBlockDecimationPattern_Pattern : List ℕ :=
  [ 0x0000 ||| 0x0000
  , 0x0000 ||| 0x0008
  , 0x0011 ||| 0x0008
  , 0x0011 ||| 0x0080
  , 0x0122 ||| 0x0008
  , 0x0122 ||| 0x0080
  , 0x0221 ||| 0x0080
  , 0x0221 ||| 0x0800
  , 0x1233 ||| 0x0008
  , 0x1233 ||| 0x0080
  , 0x1332 ||| 0x0080
  , 0x1332 ||| 0x0800
  , 0x2331 ||| 0x0080
  , 0x2331 ||| 0x0800
  , 0x3321 ||| 0x0800
  , 0x3321 ||| 0x8000 ]

/-- Embedding of `ULC_SubBlockDecimationPattern` (ulchelper.h):
`return Pattern[WindowCtrl >> 4];`. -/
def ULC_SubBlockDecimationPattern (WindowCtrl : ℕ) : ℕ :=
  ULC_SubBlockDecimationPattern_Pattern.getD (WindowCtrl >>> 4) 0

/-- Fuel-structured helper for `patNibbleCount`; calling it with fuel `p`
computes the exact iteration count (`p >>> 4` loses at least one bit per
step, so a fuel of `p` can never run out). -/
def patNibbleCountAux : ℕ → ℕ → ℕ
  | 0, _ => 1
  | fuel + 1, p => if p < 16 then 1 else 1 + patNibbleCountAux fuel (p >>> 4)

/-- Number of sub-blocks a pattern codes: the number of iterations of the
consumer loop `do { ... } while(DecimationPattern >>= 4)` (as in
Block_Transform_CalculatePsychoacoustics). -/
def patNibbleCount (p : ℕ) : ℕ :=
  patNibbleCountAux p p

/-- The per-sub-block shifts coded by a pattern (bits 0-2 of each nibble), in
coding order. -/
def subBlockShifts (p : ℕ) : List ℕ :=
  (List.range (patNibbleCount p)).map (fun i => (p >>> (4 * i)) &&& 7)

/-- The sub-block sizes coded by a pattern for block size `N`
(`N >> shift` for each coded nibble). -/
def subBlockSizes (N p : ℕ) : List ℕ :=
  (subBlockShifts p).map (fun s => N >>> s)

/-- Index of the sub-block carrying the transient flag (bit 3 of its nibble). -/
def transientIdx (p : ℕ) : ℕ :=
  (List.range 8).findIdx (fun i => (p >>> (4 * i)) &&& 8 ≠ 0)

/-- Fuel-structured helper for `popcount` (fuel `n` always suffices). -/
def popcountAux : ℕ → ℕ → ℕ
  | 0, _ => 0
  | fuel + 1, n => if n = 0 then 0 else (n &&& 1) + popcountAux fuel (n >>> 1)

/-- Population count, used to index the transient sub-block. -/
def popcount (n : ℕ) : ℕ :=
  popcountAux n n

/-! ### Block_Encode (ulcEncoder_Encode, src/unnamed/part_001): zero-run coding

The zero-run loop of `Block_Encode` is embedded as a function of the run
length `zR`: it returns the emitted escape tokens (nibble lists) together
with the residual run length left for the coefficient coder. -/

/-- Embedding of the `while(zR >= 4)` zero-run loop of `Block_Encode`.
Returns the emitted escape tokens (each a list of nibbles, `[8,x]` short or
`[8,a,y]` long) and the residual `zR` (< 4) left when the loop exits. -/
def zeroRunEnc (zR : ℕ) : List (List ℕ) × ℕ :=
  if h4 : 4 ≤ zR then
    if h26 : zR < 26 then
      let n := (zR - 2) / 2
      let rest := zeroRunEnc (zR - (n * 2 + 2))
      ([0x8, n] :: rest.1, rest.2)
    else
      let n := min ((zR - 26) / 2) 0x3F
      let rest := zeroRunEnc (zR - (n * 2 + 26))
      ([0x8, 0xC + n / 16, n % 16] :: rest.1, rest.2)
  else ([], zR)
decreasing_by all_goals omega

/-- Decoded zero count of a serialized run token, following the bitstream
description: `8,x` codes `4 + 2*(x-1)` zeros, `8,a,y` codes
`26 + 2*(16*(a-C) + y)` zeros, and a bare `0` nibble codes one zero. -/
def decodeZeroToken (t : List ℕ) : ℕ :=
  match t with
  | [_, x] => 4 + 2 * (x - 1)
  | [_, a, y] => 26 + 2 * (16 * (a - 0xC) + y)
  | _ => 1

/-- All run tokens emitted for a gap of `zR` zero coefficients: the escape
tokens of the run loop followed by one `0` nibble per residual zero
coefficient (each residual zero quantizes to the `0` nibble in the
coefficient coder). -/
def allZeroTokens (zR : ℕ) : List (List ℕ) :=
  (zeroRunEnc zR).1 ++ List.replicate (zeroRunEnc zR).2 [0x0]

/-! ### Block_Encode (src/unnamed/part_001): output size in bits

`Block_Encode` writes, per channel: one nibble per quantizer band
(`IntLog2(Quants[Chan][QBand])`), then for each maximal run of used
(non-`QUANTIZER_UNUSED`) quantizer bands the coefficients of that segment
(zero-run escapes, one nibble per directly coded coefficient) and a stop
code (`0` if one coefficient remains, `8,0` if two or more).  The model
below counts the emitted nibbles; `Size` grows by 4 bits per nibble. -/

/-- Nibbles emitted to advance from coefficient `next` up to and including a
key at band `t` (gap `zR = t - next`): the escape tokens of the run loop,
one nibble per residual coefficient, and one nibble for the key's
coefficient itself. -/
def gapNibbles (zR : ℕ) : ℕ :=
  (((zeroRunEnc zR).1.map List.length).sum) + (zeroRunEnc zR).2 + 1

/-- Nibbles of the end-of-segment code for `n` remaining coefficients:
nothing at the block edge, a lone `0` nibble if one remains, the stop code
`8,0` otherwise. -/
def stopNibbles (n : ℕ) : ℕ :=
  if n = 0 then 0 else if n = 1 then 1 else 2

/-- Nibbles emitted for one segment of consecutive used quantizer bands
ending at coefficient `endPos`, starting at coefficient `next`, with the
channel's keys that fall in the segment listed in `ks`. -/
def segNibbles (endPos : ℕ) : ℕ → List ℕ → ℕ
  | next, [] => stopNibbles (endPos - next)
  | next, t :: ks => gapNibbles (t - next) + segNibbles endPos (t + 1) ks

/-- Maximal runs of used quantizer bands, as `(base coefficient, width)`
pairs: the segmentation performed by the skip/merge loops of
`Block_Encode`. -/
def usedSegmentsAux : List (ℕ × Bool) → ℕ → Option (ℕ × ℕ) → List (ℕ × ℕ)
  | [], _, none => []
  | [], _, some seg => [seg]
  | (w, false) :: rest, pos, none => usedSegmentsAux rest (pos + w) none
  | (w, false) :: rest, pos, some seg => seg :: usedSegmentsAux rest (pos + w) none
  | (w, true) :: rest, pos, none => usedSegmentsAux rest (pos + w) (some (pos, w))
  | (w, true) :: rest, pos, some (b, u) => usedSegmentsAux rest (pos + w) (some (b, u + w))

/-- Nibbles emitted for a channel's coefficient data, one segment at a
time; a channel's keys are consumed in band order. -/
def chanSegsNibbles : List (ℕ × ℕ) → List ℕ → ℕ
  | [], _ => 0
  | (base, w) :: segs, keys =>
    segNibbles (base + w) base (keys.takeWhile (fun t => t < base + w))
      + chanSegsNibbles segs (keys.dropWhile (fun t => t < base + w))

/-- Total nibbles emitted for one channel: one quantizer nibble per
quantizer band, then the coefficient data of each used segment. -/
def chanNibbles (bw : List ℕ) (used : List Bool) (keys : List ℕ) : ℕ :=
  bw.length + chanSegsNibbles (usedSegmentsAux (bw.zip used) 0 none) keys

/-- Size in bits returned by `Block_Encode`: 4 bits per emitted nibble,
summed over all channels.  `bw` is the shared quantizer bandwidth table
`QuantsBw`; each channel contributes its used-band flags
(`Quants[Chan][QBand] != QUANTIZER_UNUSED`) and its sorted key bands. -/
def Block_Encode_Size (bw : List ℕ) (chans : List (List Bool × List ℕ)) : ℕ :=
  4 * (chans.map (fun c => chanNibbles bw c.1 c.2)).sum

/-! ### Block_Transform_InsertKeys (ulcEncoder_BlockTransform.h) -/

/-- The constant `0x1.BA18AAp1f` of `Block_Transform_InsertKeys`
(approximately 3.4538, "30dB in Np"). -/
noncomputable def cMaskSelf : ℝ := 28973226 / 2 ^ 23

/-- The constant `0x1.443438p1f` of `Block_Transform_InsertKeys`
(approximately 2.5329, "22dB in Np"). -/
noncomputable def cMaskOther : ℝ := 21247032 / 2 ^ 23

/-- Embedding of the importance value stored by `Block_Transform_InsertKeys`
with psychoacoustics enabled:
`ValNp = 0x1.BA18AAp1f*ValNp - 0x1.443438p1f*Mask;`
`ValNp += 2.0f * 4.0f*SQR(Flat)*(SQR(Flat) - 1.0f);`
`Keys[*nKeys].Val = expf(2.0f*ValNp + AnalysisPowerNp);`. -/
noncomputable def Block_Transform_InsertKeys_Val (ValNp Mask Flat AnalysisPowerNp : ℝ) : ℝ :=
  let v1 := cMaskSelf * ValNp - cMaskOther * Mask
  let v2 := v1 + 2 * (4 * (Flat * Flat) * (Flat * Flat - 1))
  Real.exp (2 * v2 + AnalysisPowerNp)

/-- The importance score exactly as the specification text states it:
`score = exp( 2 · ( 3.455·ℓ − 2.533·m ) + 8·flat²·(flat² − 1) + analysis_power )`
(with the spec's printed 3.455 and 2.533 read as the code's float
constants, which they round). -/
noncomputable def spec_InsertKeys_Val (ValNp Mask Flat AnalysisPowerNp : ℝ) : ℝ :=
  Real.exp (2 * (cMaskSelf * ValNp - cMaskOther * Mask)
    + 8 * (Flat * Flat) * (Flat * Flat - 1) + AnalysisPowerNp)

/-! ### Noise analyzer (ulcEncoder_NoiseFill.h): HF extension parameters -/

open Classical in
/-- Embedding of `Block_Encode_EncodePass_GetHFExtParams_LeastSquares`:
weighted linear least squares over `(Weight, Weight*Value)` pairs
(`Data[n*2]`, `Data[n*2+1]`), abscissa `x = n*2`.  Returns `none` when the
determinant vanishes (the C function returns 0). -/
noncomputable def Block_Encode_EncodePass_GetHFExtParams_LeastSquares
    (Data : ℕ → ℝ) (N : ℕ) : Option (ℝ × ℝ) :=
  let SumX := ∑ n in Finset.range N, Data (n * 2) * (n * 2 : ℕ)
  let SumX2 := ∑ n in Finset.range N, Data (n * 2) * (n * 2 : ℕ) * (n * 2 : ℕ)
  let SumXY := ∑ n in Finset.range N, (n * 2 : ℕ) * Data (n * 2 + 1)
  let SumY := ∑ n in Finset.range N, Data (n * 2 + 1)
  let SumW := ∑ n in Finset.range N, Data (n * 2)
  let Det := SumW * SumX2 - SumX * SumX
  if Det = 0 then none
  else some ((SumX2 * SumY - SumX * SumXY) / Det, (SumW * SumXY - SumX * SumY) / Det)

open Classical in
/-- Embedding of `Block_Encode_EncodePass_GetHFExtParams`: pseudo-DFT
fixup of the data window, least-squares solve in the log domain, conversion
to linear units (decay clamped to 1), then quantization of the amplitude
(limit `1 + 0xF`) and of the decay (`(1-Decay) * 2^19`, clamped to `0xFF`).
Returns `(NoiseQ, NoiseDecay)`. -/
noncomputable def Block_Encode_EncodePass_GetHFExtParams
    (Data : ℕ → ℝ) (Band N : ℕ) (q : ℝ) : ℤ × ℤ :=
  match Block_Encode_EncodePass_GetHFExtParams_LeastSquares
      (fun i => Data (Band / 2 * 2 + i)) ((N + (Band &&& 1) + 1) / 2) with
  | none => (0, 0)
  | some ab =>
    let Decay := if 1 < Real.exp ab.2 then 1 else Real.exp ab.2
    let NoiseDecay := ULC_CompandedQuantizeUnsigned ((Decay - 1) * -(2 ^ 19 : ℝ))
    (ULC_CompandedQuantizeCoefficientUnsigned (Real.exp ab.1 * q * 4) (1 + 0xF),
     if 0xFF < NoiseDecay then 0xFF else NoiseDecay)

/-! ### Window controller (ulcEncoder_WindowControl, 2021 version in
src/libulc/ulcEncoder_NoiseFill.h lines 231-498): binary descent

The transient filtering stage stores, per interleaved segment, a pair
`(Sum, SumW) = (Σ w·ln d, Σ w)`.  `ULC_HELPER_SUBBLOCK_INTERLEAVE_MODULO`
is not part of the provided sources; per the specification ("Partition the
N/2 filtered samples into 16 interleaved segments", i.e. 4 groups LL/L/M/R
of 4 segments each) it is modelled as 4.  Segment data is embedded over ℚ
(the descent uses only field operations and comparisons). -/

/-- Modelled from the spec: `ULC_HELPER_SUBBLOCK_INTERLEAVE_MODULO`, the
initial number of analysis segments per LL/L/M/R group.  The define lives
in the repository's `ulcHelper.h`, which is not among the provided sources;
the spec fixes 16 interleaved segments, i.e. 4 per group. -/
def ULC_HELPER_SUBBLOCK_INTERLEAVE_MODULO : ℕ := 4

/-- Group accumulation of the descent: sum of `(Sum, SumW)` over `len`
consecutive segments starting at `start` (the `SUM_DATA` loop). -/
def groupSum (segs : ℕ → ℚ × ℚ) (start len : ℕ) : ℚ × ℚ :=
  (∑ i in Finset.range len, (segs (start + i)).1,
   ∑ i in Finset.range len, (segs (start + i)).2)

/-- The `FINALIZE_DATA` step: `x.Sum = (x.Sum != 0.0f) ? (x.Sum / x.SumW) :
MIN_LOG` with `MIN_LOG = -100.0f`. -/
def segMean (s : ℚ × ℚ) : ℚ :=
  if s.1 ≠ 0 then s.1 / s.2 else -100

/-- Largest of the three log-ratios with the code's tie-breaking
(`L` preferred over `M` preferred over `R`); position 0/1/2 = L/M/R. -/
def pickLargest (rL rM rR : ℚ) : ℕ × ℚ :=
  let p0 := ((0 : ℕ), rL)
  let p1 := if p0.2 < rM then ((1 : ℕ), rM) else p0
  if p1.2 < rR then ((2 : ℕ), rR) else p1

/-- One ratio analysis of the descent: group means of LL/L/M/R (`A`
segments each, the L group starting at segment `off`), their successive
differences, and the largest with its position. -/
def windowCtrlPick (segs : ℕ → ℚ × ℚ) (off A : ℕ) : ℕ × ℚ :=
  let mLL := segMean (groupSum segs (off - A) A)
  let mL := segMean (groupSum segs off A)
  let mM := segMean (groupSum segs (off + A) A)
  let mR := segMean (groupSum segs (off + 2 * A) A)
  pickLargest (mL - mLL) (mM - mL) (mR - mM)

/-- The constant `0x1.62E430p-1f` (`Log[2]`) of the descent threshold. -/
def lnTwoQ : ℚ := 23258160 / 2 ^ 25

/-- Embedding of the binary-descent loop of `Block_Transform_GetWindowCtrl`
(2021 version): decimate while window switching is enabled, more than one
analysis segment per group remains (`AnalysisLen > 1`), the sub-block
exceeds 64 samples, and the largest ratio is in L or M and exceeds `ln 2`;
append pattern bit 0 for L, 1 for M (advancing the data window for M).
Returns `(Decimation, SubBlockSize)`.  `fuel` bounds the iteration count;
any `fuel > log2 AnalysisLen` reproduces the loop. -/
def Block_Transform_GetWindowCtrl_Descent (ws : Bool) (segs : ℕ → ℚ × ℚ) :
    ℕ → ℕ → ℕ → ℕ → ℕ → ℕ × ℕ
  | 0, _, _, sbs, decim => (decim, sbs)
  | fuel + 1, off, A, sbs, decim =>
    if ws = true ∧ 1 < A ∧ 64 < sbs ∧ (windowCtrlPick segs off A).1 ≠ 2
        ∧ lnTwoQ < (windowCtrlPick segs off A).2 then
      if (windowCtrlPick segs off A).1 = 0 then
        Block_Transform_GetWindowCtrl_Descent ws segs fuel off (A / 2) (sbs / 2) (decim <<< 1)
      else
        Block_Transform_GetWindowCtrl_Descent ws segs fuel (off + A) (A / 2) (sbs / 2)
          (decim <<< 1 ||| 1)
    else (decim, sbs)

/-- The descent exactly as the claim states it: a decimation step is taken
exactly when the largest ratio exceeds `ln 2` and lies in L or M, window
switching is enabled, and the sub-block exceeds 64 samples (no condition on
the remaining analysis length). -/
def spec_WindowCtrl_Descent (ws : Bool) (segs : ℕ → ℚ × ℚ) :
    ℕ → ℕ → ℕ → ℕ → ℕ → ℕ × ℕ
  | 0, _, _, sbs, decim => (decim, sbs)
  | fuel + 1, off, A, sbs, decim =>
    if ws = true ∧ 64 < sbs ∧ (windowCtrlPick segs off A).1 ≠ 2
        ∧ lnTwoQ < (windowCtrlPick segs off A).2 then
      if (windowCtrlPick segs off A).1 = 0 then
        spec_WindowCtrl_Descent ws segs fuel off (A / 2) (sbs / 2) (decim <<< 1)
      else
        spec_WindowCtrl_Descent ws segs fuel (off + A) (A / 2) (sbs / 2) (decim <<< 1 ||| 1)
    else (decim, sbs)

/-! ### Window controller: overlap scale selection -/

/-- The constant `0x1.149A78p2f` (approximately 4.3219, the spec's 4.32). -/
noncomputable def cOverlapBias : ℝ := 18127480 / 2 ^ 22

/-- The constant `0x1.715476p0f` (`1/Log[2]`, approximately 1.4427, the
spec's 1.44). -/
noncomputable def cInvLnTwo : ℝ := 24204406 / 2 ^ 24

open Classical in
/-- The conversion of `Log2OverlapSamplesScale` to an overlap scale in
`Block_Transform_GetWindowCtrl`: 0 if non-positive, 7 if at least 6.5,
else `(int)(L + 0.5f)`. -/
noncomputable def overlapScaleFromL (L : ℝ) : ℕ :=
  if 0 < L then (if 6.5 ≤ L then 7 else (⌊L + 1 / 2⌋).toNat) else 0

/-- Embedding of the overlap-scale selection of
`Block_Transform_GetWindowCtrl`:
`Log2OverlapSamplesScale = Log2SubBlockSize + 0x1.149A78p2f +
-0x1.715476p0f*(logf(RateHz) - Ratio)` (with
`Log2SubBlockSize = 31 - __builtin_clz(SubBlockSize)`), then converted by
`overlapScaleFromL`. -/
noncomputable def overlapScaleSel (sbs : ℕ) (RateHz r : ℝ) : ℕ :=
  overlapScaleFromL
    ((Nat.log 2 sbs : ℝ) + cOverlapBias + -cInvLnTwo * (Real.log RateHz - r))

/-- Embedding of the trailing
`while((SubBlockSize >> OverlapScale) < 16) OverlapScale--;` loop
(the scale only ever decreases; it never goes below 0 when `sbs ≥ 16`). -/
def overlapFix (sbs : ℕ) : ℕ → ℕ
  | 0 => 0
  | s + 1 => if sbs >>> (s + 1) < 16 then overlapFix sbs s else s + 1

/-- The final overlap scale emitted by `Block_Transform_GetWindowCtrl` for
a transient sub-block of size `sbs`, sample rate `RateHz` and final winning
ratio `r`. -/
noncomputable def Block_Transform_GetWindowCtrl_Overlap (sbs : ℕ) (RateHz r : ℝ) : ℕ :=
  overlapFix sbs (overlapScaleSel sbs RateHz r)

/-! ### Psychoacoustics (Block_Transform_CalculatePsychoacoustics,
src/unnamed/part_000)

The fixed-point conversion and the sliding-window loop are embedded; the
`PSYCHO_ULTRASTABLE` noise window is compiled out in these sources
(`ULC_USE_NOISE_CODING` is not defined by src/include/ulcEncoder.h, so the
`#if` arm is inactive).  The division `Sum / SumW` is modelled with an
explicit `none` on a zero divisor, so that the safety claim is visible in
the type. -/

open Classical in
/-- Fixed-point energy of one band
(`v = sqrtf(BufferAmp2[n]*Norm) * 0x1.0p16f` then
`(v <= 1.0f) ? 1 : (v >= 0x1.0p32f) ? 0xFFFFFFFFu : (uint32_t)v`). -/
noncomputable def energyFxp (v : ℝ) : ℕ :=
  if v ≤ 1 then 1 else if (2 : ℝ) ^ 32 ≤ v then 2 ^ 32 - 1 else ⌊v⌋₊

open Classical in
/-- Fixed-point log-energy of one band
(`(v <= 1.0f) ? 0 : (uint32_t)(logf(v) * LogNorm)`). -/
noncomputable def energyNpFxp (v LogNorm : ℝ) : ℕ :=
  if v ≤ 1 then 0 else ⌊Real.log v * LogNorm⌋₊

/-- The main critical-band window exactly as the claim states it at band
index `n`: `[⌊29n/32⌋, min(⌊45n/32⌋, S))`. -/
def mainBandWindow (n S : ℕ) : Finset ℕ :=
  Finset.Ico (29 * n / 32) (min (45 * n / 32) S)

/-- Embedding of the masking loop of
`Block_Transform_CalculatePsychoacoustics` for one sub-block of size `S`:
state is `(remaining, BandBeg, BandEnd, Sum, SumW)`; each step re-focuses
the window (remove at most one band at the lower edge, add the bands that
came into focus at the upper edge) and then computes `Sum / SumW`; a zero
divisor yields `none`.  The returned list holds the per-band quotients
`x` (the masking value for band `n` is `x*InvLogNorm + NormLog`). -/
def psychoLoopX (E ENp : ℕ → ℕ) (S : ℕ) : ℕ → ℕ → ℕ → ℕ → ℕ → Option (List ℕ)
  | 0, _, _, _, _ => some []
  | k + 1, bandBeg, bandEnd, acc, accW =>
    let oldB := bandBeg / 32
    let begN := bandBeg + 29
    let newB := begN / 32
    let acc1 := if oldB < newB then acc - E oldB * ENp oldB else acc
    let accW1 := if oldB < newB then accW - E oldB else accW
    let oldE := bandEnd / 32
    let endN := bandEnd + 45
    let newE := min (endN / 32) S
    let acc2 := acc1 + ∑ i in Finset.Ico oldE newE, E i * ENp i
    let accW2 := accW1 + ∑ i in Finset.Ico oldE newE, E i
    if accW2 = 0 then none
    else Option.map (fun l => acc2 / accW2 :: l) (psychoLoopX E ENp S k begN endN acc2 accW2)

/-- The whole per-sub-block masking computation for a sub-block whose
normalization ran (peak non-zero): fixed-point conversion of the energies,
then the sliding-window loop from zeroed state. -/
noncomputable def Block_Transform_CalculatePsychoacoustics_SubBlock
    (Amp2 : ℕ → ℝ) (Norm LogNorm : ℝ) (S : ℕ) : Option (List ℕ) :=
  psychoLoopX (fun i => energyFxp (Real.sqrt (Amp2 i * Norm) * 2 ^ 16))
    (fun i => energyNpFxp (Amp2 i * Norm) LogNorm) S S 0 0 0 0

/-! ### Concrete inputs used by the counterexamples -/

/-- Concrete HF-extension input: two `(Weight, Weight*Value)` pairs
`(1, 0), (1, 0)` (an exactly flat log-spectrum of amplitude `e^0 = 1`). -/
noncomputable def cexHFData : ℕ → ℝ :=
  fun i => if i = 0 then 1 else if i = 2 then 1 else 0

/-- Concrete transient segment data: the four LL segments hold
`(Sum, SumW) = (1, 1)` and every later segment holds `(8, 1)`, i.e. a
sustained jump of `ln`-ratio 7 sitting at the L position at every
decimation depth. -/
def cexSegs : ℕ → ℚ × ℚ :=
  fun i => if i < 4 then (1, 1) else (8, 1)

/-- Well-formedness of a segment list relative to a lower bound: bases are
ascending and segments do not overlap. -/
def SegsWF : ℕ → List (ℕ × ℕ) → Prop
  | _, [] => True
  | lb, s :: segs => lb ≤ s.1 ∧ SegsWF (s.1 + s.2) segs

/-! ## Helper lemmas -/

lemma floor_one_half : (⌊(1 / 2 : ℝ)⌋ : ℤ) = 0 := by
  apply Int.floor_eq_zero_iff.2
  constructor <;> norm_num

lemma fract_one_half : Int.fract (1 / 2 : ℝ) = 1 / 2 :=
  Int.fract_eq_self.2 ⟨by norm_num, by norm_num⟩

lemma floor_le_rndNE (x : ℝ) : ⌊x⌋ ≤ rndNE x := by
  unfold rndNE
  split_ifs with h1 h2
  · exact le_refl _
  · omega
  · rw [round_eq]
    exact Int.floor_le_floor (by linarith)

lemma rndNE_nonneg {x : ℝ} (hx : 0 ≤ x) : 0 ≤ rndNE x := by
  refine le_trans ?_ (floor_le_rndNE x)
  exact Int.floor_nonneg.2 hx

lemma ULC_CompandedQuantizeUnsigned_nonneg (v : ℝ) :
    0 ≤ ULC_CompandedQuantizeUnsigned v := by
  unfold ULC_CompandedQuantizeUnsigned
  split_ifs with h
  · exact rndNE_nonneg (Real.sqrt_nonneg _)
  · exact le_refl _

/-! ## Claim theorems -/

/-- Claim C9 (code_bug evaluation): at the failing input `v = 0.5`,
`ULC_CompandedQuantizeUnsigned` returns 0 — `sqrtf(0.25f)` is exactly
`0.5f` and `lrintf` resolves the tie to the even integer 0 — although the
function's own derivation comment states that 0.5 is the smallest input
producing a non-zero output. -/
theorem C9_quantize_half_returns_zero : ULC_CompandedQuantizeUnsigned (1 / 2) = 0 := by
  have hsq : Real.sqrt ((1 : ℝ) / 2 - 1 / 4) = 1 / 2 := by
    rw [show (1 : ℝ) / 2 - 1 / 4 = (1 / 2) ^ 2 by norm_num]
    exact Real.sqrt_sq (by norm_num)
  unfold ULC_CompandedQuantizeUnsigned rndNE
  rw [if_pos le_rfl, hsq, if_pos fract_one_half, floor_one_half, if_pos even_zero]

/-- Claim C7: for every window control word whose decimation nibble `d` is
non-zero, the index of the transient-marked sub-block in the decimation
pattern table equals `popcount d - 1`. -/
theorem C7_transient_index_is_popcount_minus_one :
    ∀ d < 16, ∀ s < 16, 1 ≤ d →
      transientIdx (ULC_SubBlockDecimationPattern ((d <<< 4) ||| s)) = popcount d - 1 := by
  decide

/-- Witness for C7 at decimation nibble `0xB` and overlap nibble `0x3`. -/
theorem C7_witness :
    transientIdx (ULC_SubBlockDecimationPattern ((0xB <<< 4) ||| 0x3)) = popcount 0xB - 1 :=
  C7_transient_index_is_popcount_minus_one 0xB (by norm_num) 0x3 (by norm_num) (by norm_num)

lemma pattern_shift_facts :
    ∀ d < 16, ∀ s < 16, 1 ≤ d →
      ((subBlockShifts (ULC_SubBlockDecimationPattern ((d <<< 4) ||| s))).map
          (fun j => 8 >>> j)).sum = 8
      ∧ ∀ j ∈ subBlockShifts (ULC_SubBlockDecimationPattern ((d <<< 4) ||| s)), j ≤ 3 := by
  decide

lemma pow_shiftRight {j k : ℕ} (h : j ≤ k) : 2 ^ k >>> j = 2 ^ (k - j) := by
  rw [Nat.shiftRight_eq_div_pow, Nat.pow_div h (by norm_num)]

lemma sum_shift_pow (l : List ℕ) (k : ℕ) (hk : 3 ≤ k) (hj : ∀ j ∈ l, j ≤ 3)
    (h8 : (l.map (fun j => 8 >>> j)).sum = 8) :
    (l.map (fun j => 2 ^ k >>> j)).sum = 2 ^ k := by
  have key : ∀ m : List ℕ, (∀ j ∈ m, j ≤ 3) →
      (m.map (fun j => 2 ^ k >>> j)).sum = 2 ^ (k - 3) * (m.map (fun j => 8 >>> j)).sum := by
    intro m hm
    induction m with
    | nil => simp
    | cons a t ih =>
      have ha : a ≤ 3 := hm a (List.mem_cons_self _ _)
      simp only [List.map_cons, List.sum_cons, Nat.mul_add]
      rw [ih (fun j hj' => hm j (List.mem_cons_of_mem _ hj'))]
      congr 1
      rw [pow_shiftRight (le_trans ha hk),
        show (8 : ℕ) = 2 ^ 3 by norm_num, pow_shiftRight ha, ← pow_add]
      congr 1
      omega
  rw [key l hj, h8, show (8 : ℕ) = 2 ^ 3 by norm_num, ← pow_add]
  congr 1
  omega

/-- Claim C8: for every non-zero decimation nibble, the sub-block sizes
given by the decimation pattern table for block size `N = 2^k` are powers
of two `N >> j` with `j ≤ 3` (hence in `[N/8, N]`) and sum exactly to `N`;
the partial sums are strictly increasing, so the sub-blocks partition
`[0, N)` into consecutive non-empty intervals. -/
theorem C8_subblock_sizes_partition :
    ∀ d < 16, ∀ s < 16, 1 ≤ d → ∀ k, 3 ≤ k →
      (subBlockSizes (2 ^ k) (ULC_SubBlockDecimationPattern ((d <<< 4) ||| s))).sum = 2 ^ k
      ∧ (∀ x ∈ subBlockSizes (2 ^ k) (ULC_SubBlockDecimationPattern ((d <<< 4) ||| s)),
          ∃ j, j ≤ 3 ∧ x = 2 ^ (k - j))
      ∧ (∀ x ∈ subBlockSizes (2 ^ k) (ULC_SubBlockDecimationPattern ((d <<< 4) ||| s)),
          2 ^ k / 8 ≤ x ∧ x ≤ 2 ^ k)
      ∧ (∀ i < (subBlockSizes (2 ^ k) (ULC_SubBlockDecimationPattern ((d <<< 4) ||| s))).length,
          ((subBlockSizes (2 ^ k) (ULC_SubBlockDecimationPattern ((d <<< 4) ||| s))).take i).sum
            < ((subBlockSizes (2 ^ k)
                (ULC_SubBlockDecimationPattern ((d <<< 4) ||| s))).take (i + 1)).sum) := by
  intro d hd s hs hd1 k hk
  obtain ⟨h8, hj3⟩ := pattern_shift_facts d hd s hs hd1
  set p := ULC_SubBlockDecimationPattern ((d <<< 4) ||| s) with hp
  have hsum : (subBlockSizes (2 ^ k) p).sum = 2 ^ k := by
    unfold subBlockSizes
    exact sum_shift_pow _ k hk hj3 h8
  have hmem : ∀ x ∈ subBlockSizes (2 ^ k) p, ∃ j, j ≤ 3 ∧ x = 2 ^ (k - j) := by
    intro x hx
    unfold subBlockSizes at hx
    obtain ⟨j, hjmem, rfl⟩ := List.mem_map.1 hx
    exact ⟨j, hj3 j hjmem, pow_shiftRight (le_trans (hj3 j hjmem) hk)⟩
  refine ⟨hsum, hmem, ?_, ?_⟩
  · intro x hx
    obtain ⟨j, hj, rfl⟩ := hmem x hx
    constructor
    · rw [show (8 : ℕ) = 2 ^ 3 by norm_num, Nat.pow_div hk (by norm_num)]
      exact Nat.pow_le_pow_right (by norm_num) (by omega)
    · exact Nat.pow_le_pow_right (by norm_num) (by omega)
  · intro i hi
    rw [List.take_succ, List.getElem?_eq_getElem hi]
    have hpos : 0 < (subBlockSizes (2 ^ k) p)[i] := by
      obtain ⟨j, _, hx⟩ := hmem _ (List.getElem_mem hi)
      rw [hx]
      exact Nat.pos_pow_of_pos _ (by norm_num)
    simp only [List.sum_append, Option.toList_some, List.sum_cons, List.sum_nil]
    omega

/-- Witness for C8 at decimation nibble `0x9`, overlap nibble `0x0`,
block size `2^8 = 256`. -/
theorem C8_witness :
    (subBlockSizes (2 ^ 8) (ULC_SubBlockDecimationPattern ((0x9 <<< 4) ||| 0x0))).sum = 2 ^ 8
    ∧ (∀ x ∈ subBlockSizes (2 ^ 8) (ULC_SubBlockDecimationPattern ((0x9 <<< 4) ||| 0x0)),
        ∃ j, j ≤ 3 ∧ x = 2 ^ (8 - j))
    ∧ (∀ x ∈ subBlockSizes (2 ^ 8) (ULC_SubBlockDecimationPattern ((0x9 <<< 4) ||| 0x0)),
        2 ^ 8 / 8 ≤ x ∧ x ≤ 2 ^ 8)
    ∧ (∀ i < (subBlockSizes (2 ^ 8) (ULC_SubBlockDecimationPattern ((0x9 <<< 4) ||| 0x0))).length,
        ((subBlockSizes (2 ^ 8) (ULC_SubBlockDecimationPattern ((0x9 <<< 4) ||| 0x0))).take i).sum
          < ((subBlockSizes (2 ^ 8)
              (ULC_SubBlockDecimationPattern ((0x9 <<< 4) ||| 0x0))).take (i + 1)).sum) :=
  C8_subblock_sizes_partition 0x9 (by norm_num) 0x0 (by norm_num) (by norm_num) 8 (by norm_num)

/-- Claim C2 (counterexample): with zero log-amplitude, zero masking, zero
analysis power and tonality proxy `flat = 1/2`, the value stored by
`Block_Transform_InsertKeys` is `exp(-3)`, not the spec formula's
`exp(-3/2)` — the code doubles the flatness term together with the rest of
the exponent. -/
theorem C2_counterexample :
    Block_Transform_InsertKeys_Val 0 0 (1 / 2) 0 ≠ spec_InsertKeys_Val 0 0 (1 / 2) 0 := by
  unfold Block_Transform_InsertKeys_Val spec_InsertKeys_Val
  intro h
  rw [Real.exp_eq_exp] at h
  simp only [mul_zero, zero_sub, sub_zero, add_zero, zero_add, mul_one] at h
  norm_num at h

/-- Claim C3 (counterexample): on the flat two-point log-spectrum
`cexHFData` (fit `a = 0`, `b = 0`) with quantizer scale `q = 100`, the HF
extension extractor returns amplitude code 16 — `Amplitude*q*4 = 400`
quantizes to `lrintf(sqrt 399.75) = 20`, clamped to the limit `1 + 0xF` —
so the claimed range `[0, 15]` is exceeded (the decay 0 is in range). -/
theorem C3_counterexample :
    Block_Encode_EncodePass_GetHFExtParams cexHFData 0 4 100 = (16, 0)
    ∧ ¬(Block_Encode_EncodePass_GetHFExtParams cexHFData 0 4 100).1 ≤ 15 := by
  have h19 : (19 : ℤ) ≤ ⌊Real.sqrt ((1 : ℝ) * 100 * 4 - 1 / 4)⌋ := by
    apply Int.le_floor.2
    have h : (19 : ℝ) ≤ Real.sqrt ((1 : ℝ) * 100 * 4 - 1 / 4) := by
      rw [show (1 : ℝ) * 100 * 4 - 1 / 4 = 399.75 by norm_num]
      rw [Real.le_sqrt] <;> norm_num
    exact_mod_cast h
  have hvq : (16 : ℤ) ≤ ULC_CompandedQuantizeUnsigned (1 * 100 * 4) := by
    unfold ULC_CompandedQuantizeUnsigned
    rw [if_pos (by norm_num : (1 : ℝ) / 2 ≤ 1 * 100 * 4)]
    have hfl := floor_le_rndNE (Real.sqrt ((1 : ℝ) * 100 * 4 - 1 / 4))
    omega
  have hLS : Block_Encode_EncodePass_GetHFExtParams_LeastSquares
      (fun i => cexHFData (0 / 2 * 2 + i)) ((4 + (0 &&& 1) + 1) / 2) = some (0, 0) := by
    unfold Block_Encode_EncodePass_GetHFExtParams_LeastSquares
    rw [show ((4 + (0 &&& 1) + 1) / 2 : ℕ) = 2 from rfl]
    simp only [Finset.sum_range_succ, Finset.sum_range_zero]
    norm_num [cexHFData]
  have hmain : Block_Encode_EncodePass_GetHFExtParams cexHFData 0 4 100 = (16, 0) := by
    unfold Block_Encode_EncodePass_GetHFExtParams
    rw [hLS]
    dsimp only
    rw [Real.exp_zero, if_neg (by norm_num : ¬(1 : ℝ) < 1)]
    unfold ULC_CompandedQuantizeCoefficientUnsigned
    rw [if_neg (by omega : ¬ULC_CompandedQuantizeUnsigned (1 * 100 * 4) < 1 + 0xF)]
    have hd0 : ULC_CompandedQuantizeUnsigned (((1 : ℝ) - 1) * -(2 ^ 19 : ℝ)) = 0 := by
      unfold ULC_CompandedQuantizeUnsigned
      rw [if_neg (by norm_num)]
    rw [hd0]
    norm_num
  exact ⟨hmain, by rw [hmain]; norm_num⟩

/-- Claim C3 (amended): for every input band range and quantizer scale, the
HF-extension extractor returns a quantized amplitude in `[0, 16]` (the
clamp limit is `1 + 0xF = 16`; 16 is attained) and a quantized decay in
`[0, 255]`. -/
theorem C3_hfext_ranges (Data : ℕ → ℝ) (Band N : ℕ) (q : ℝ) :
    0 ≤ (Block_Encode_EncodePass_GetHFExtParams Data Band N q).1
    ∧ (Block_Encode_EncodePass_GetHFExtParams Data Band N q).1 ≤ 16
    ∧ 0 ≤ (Block_Encode_EncodePass_GetHFExtParams Data Band N q).2
    ∧ (Block_Encode_EncodePass_GetHFExtParams Data Band N q).2 ≤ 255 := by
  unfold Block_Encode_EncodePass_GetHFExtParams
  rcases hLS : Block_Encode_EncodePass_GetHFExtParams_LeastSquares
      (fun i => Data (Band / 2 * 2 + i)) ((N + (Band &&& 1) + 1) / 2) with _ | ab
  · dsimp only
    norm_num
  · dsimp only
    simp only [ULC_CompandedQuantizeCoefficientUnsigned]
    refine ⟨?_, ?_, ?_, ?_⟩
    · split_ifs with h
      · exact ULC_CompandedQuantizeUnsigned_nonneg _
      · norm_num
    · split_ifs with h <;> omega
    · split_ifs <;> first | exact ULC_CompandedQuantizeUnsigned_nonneg _ | norm_num
    · split_ifs <;> omega

lemma decodeZeroToken_pair (a x : ℕ) : decodeZeroToken [a, x] = 4 + 2 * (x - 1) := rfl

lemma decodeZeroToken_triple (a x y : ℕ) :
    decodeZeroToken [a, x, y] = 26 + 2 * (16 * (x - 0xC) + y) := rfl

lemma decodeZeroToken_single (a : ℕ) : decodeZeroToken [a] = 1 := rfl

/-- The shape facts shared by C6 and C1: the residual is below 4, escape
tokens decode back to exactly the skipped zero count, and every escape
token is a short `[8, 1..B]` pair or a long `[8, C..F, 0..F]` triple with
decoded length `4 + 2(x-1) ∈ [4,24]` resp. `26 + 2(16(a-C)+y) ∈ [26,152]`. -/
lemma zeroRunEnc_spec (zR : ℕ) :
    (zeroRunEnc zR).2 < 4
    ∧ ((zeroRunEnc zR).1.map decodeZeroToken).sum + (zeroRunEnc zR).2 = zR
    ∧ ∀ t ∈ (zeroRunEnc zR).1,
        (∃ x, 1 ≤ x ∧ x ≤ 0xB ∧ t = [0x8, x] ∧ decodeZeroToken t = 4 + 2 * (x - 1)
          ∧ 4 ≤ decodeZeroToken t ∧ decodeZeroToken t ≤ 24)
        ∨ (∃ a y, 0xC ≤ a ∧ a ≤ 0xF ∧ y ≤ 0xF ∧ t = [0x8, a, y]
          ∧ decodeZeroToken t = 26 + 2 * (16 * (a - 0xC) + y)
          ∧ 26 ≤ decodeZeroToken t ∧ decodeZeroToken t ≤ 152) := by
  induction zR using Nat.strong_induction_on with
  | _ zR ih =>
    rw [zeroRunEnc]
    split_ifs with h4 h26
    · -- short escape: 4 ≤ zR < 26
      have hlt : zR - ((zR - 2) / 2 * 2 + 2) < zR := by omega
      obtain ⟨ih1, ih2, ih3⟩ := ih _ hlt
      refine ⟨ih1, ?_, ?_⟩
      · simp only [List.map_cons, List.sum_cons, decodeZeroToken_pair]
        omega
      · intro t ht
        rcases List.mem_cons.1 ht with rfl | ht'
        · refine Or.inl ⟨(zR - 2) / 2, by omega, by omega, rfl, decodeZeroToken_pair _ _, ?_, ?_⟩
            <;> rw [decodeZeroToken_pair] <;> omega
        · exact ih3 t ht'
    · -- long escape: 26 ≤ zR
      have hmle : min ((zR - 26) / 2) 0x3F ≤ (zR - 26) / 2 := min_le_left _ _
      have hm63 : min ((zR - 26) / 2) 0x3F ≤ 0x3F := min_le_right _ _
      have hlt : zR - (min ((zR - 26) / 2) 0x3F * 2 + 26) < zR := by omega
      obtain ⟨ih1, ih2, ih3⟩ := ih _ hlt
      refine ⟨ih1, ?_, ?_⟩
      · simp only [List.map_cons, List.sum_cons, decodeZeroToken_triple]
        omega
      · intro t ht
        rcases List.mem_cons.1 ht with rfl | ht'
        · refine Or.inr ⟨0xC + min ((zR - 26) / 2) 0x3F / 16, min ((zR - 26) / 2) 0x3F % 16,
            by omega, by omega, by omega, rfl, decodeZeroToken_triple _ _ _, ?_, ?_⟩
            <;> rw [decodeZeroToken_triple] <;> omega
        · exact ih3 t ht'
    · -- no escape: zR < 4
      exact ⟨by omega, by simp, by simp⟩

/-- Claim C6: for a gap of `zR` zero coefficients, the decoded zero counts
of the emitted run tokens (escape runs plus one `0` nibble per residual
zero) sum exactly to `zR`; each token decodes to a length in
`{1} ∪ [4, 152]`; every escape token is a short run `8,1..B` of decoded
length `4 + 2(x-1) ∈ [4, 24]` or a long run `8,C..F,Y` of decoded length
`26 + 2(16(a-C)+Y) ∈ [26, 152]`; the residual is below 4; and the escape
form chosen at run length `zR` is the short one exactly when `zR < 26`. -/
theorem C6_zero_run_serialization (zR : ℕ) :
    ((allZeroTokens zR).map decodeZeroToken).sum = zR
    ∧ (∀ t ∈ allZeroTokens zR,
        decodeZeroToken t = 1 ∨ (4 ≤ decodeZeroToken t ∧ decodeZeroToken t ≤ 152))
    ∧ (∀ t ∈ (zeroRunEnc zR).1,
        (∃ x, 1 ≤ x ∧ x ≤ 0xB ∧ t = [0x8, x] ∧ decodeZeroToken t = 4 + 2 * (x - 1)
          ∧ 4 ≤ decodeZeroToken t ∧ decodeZeroToken t ≤ 24)
        ∨ (∃ a y, 0xC ≤ a ∧ a ≤ 0xF ∧ y ≤ 0xF ∧ t = [0x8, a, y]
          ∧ decodeZeroToken t = 26 + 2 * (16 * (a - 0xC) + y)
          ∧ 26 ≤ decodeZeroToken t ∧ decodeZeroToken t ≤ 152))
    ∧ (zeroRunEnc zR).2 < 4
    ∧ (zeroRunEnc zR).1.head? = (if 4 ≤ zR then
        some (if zR < 26 then [0x8, (zR - 2) / 2]
          else [0x8, 0xC + min ((zR - 26) / 2) 0x3F / 16, min ((zR - 26) / 2) 0x3F % 16])
        else none) := by
  obtain ⟨h1, h2, h3⟩ := zeroRunEnc_spec zR
  refine ⟨?_, ?_, h3, h1, ?_⟩
  · unfold allZeroTokens
    rw [List.map_append, List.sum_append]
    have : ((List.replicate (zeroRunEnc zR).2 [0x0]).map decodeZeroToken).sum
        = (zeroRunEnc zR).2 := by
      rw [List.map_replicate, decodeZeroToken_single, List.sum_replicate, smul_eq_mul,
        Nat.mul_one]
    omega
  · intro t ht
    unfold allZeroTokens at ht
    rcases List.mem_append.1 ht with ht' | ht'
    · rcases h3 t ht' with ⟨x, _, _, _, _, hlo, hhi⟩ | ⟨a, y, _, _, _, _, _, hlo, hhi⟩
      · exact Or.inr ⟨hlo, le_trans hhi (by norm_num)⟩
      · exact Or.inr ⟨by omega, hhi⟩
    · rw [List.eq_of_mem_replicate ht']
      exact Or.inl (decodeZeroToken_single _)
  · rw [zeroRunEnc]
    split_ifs <;> simp

lemma overlapScaleFromL_eq (L : ℝ) :
    (overlapScaleFromL L : ℤ) = max 0 (min 7 (round L)) := by
  unfold overlapScaleFromL
  rw [round_eq]
  split_ifs with h0 h65
  · have h7 : (7 : ℤ) ≤ ⌊L + 1 / 2⌋ := Int.le_floor.2 (by push_cast; linarith)
    omega
  · have hge : (0 : ℤ) ≤ ⌊L + 1 / 2⌋ := Int.floor_nonneg.2 (by linarith)
    have hlt : ⌊L + 1 / 2⌋ < 7 := Int.floor_lt.2 (by push_cast; linarith)
    omega
  · have hle : ⌊L + 1 / 2⌋ ≤ ⌊(1 : ℝ) / 2⌋ := Int.floor_le_floor (by linarith)
    rw [floor_one_half] at hle
    omega

lemma overlapFix_ge16 (sbs : ℕ) (hsbs : 16 ≤ sbs) : ∀ s, 16 ≤ sbs >>> overlapFix sbs s := by
  intro s
  induction s with
  | zero => simpa [overlapFix] using hsbs
  | succ n ih =>
    simp only [overlapFix]
    split_ifs with h
    · exact ih
    · omega

lemma shiftRight_le_self (n s : ℕ) : n >>> s ≤ n := by
  rw [Nat.shiftRight_eq_div_pow]
  exact Nat.div_le_self _ _

/-- Claim C4: for a transient sub-block of size `2^k` (`k ≥ 4`), the
selected overlap scale equals `clamp(round(log2(sbs) + 4.32 − 1.44·(ln rate
− r)), 0, 7)` (constants `0x1.149A78p2f`, `0x1.715476p0f`), and after the
decrement loop the emitted overlap length `sbs >> s` is at least 16 samples
and at most the sub-block size. -/
theorem C4_overlap_scale (k : ℕ) (hk : 4 ≤ k) (RateHz r : ℝ) :
    (overlapScaleSel (2 ^ k) RateHz r : ℤ)
      = max 0 (min 7 (round ((k : ℝ) + cOverlapBias - cInvLnTwo * (Real.log RateHz - r))))
    ∧ 16 ≤ 2 ^ k >>> Block_Transform_GetWindowCtrl_Overlap (2 ^ k) RateHz r
    ∧ 2 ^ k >>> Block_Transform_GetWindowCtrl_Overlap (2 ^ k) RateHz r ≤ 2 ^ k := by
  have h16 : 16 ≤ 2 ^ k :=
    le_trans (by norm_num : (16 : ℕ) ≤ 2 ^ 4) (Nat.pow_le_pow_right (by norm_num) hk)
  refine ⟨?_, ?_, shiftRight_le_self _ _⟩
  · unfold overlapScaleSel
    rw [Nat.log_pow (by norm_num), overlapScaleFromL_eq]
    have harg : (k : ℝ) + cOverlapBias + -cInvLnTwo * (Real.log RateHz - r)
        = (k : ℝ) + cOverlapBias - cInvLnTwo * (Real.log RateHz - r) := by ring
    rw [harg]
  · exact overlapFix_ge16 _ h16 _

/-- Witness for C4 at `sbs = 2^8 = 256`, `RateHz = 1`, `r = 0`. -/
theorem C4_witness :
    (overlapScaleSel (2 ^ 8) 1 0 : ℤ)
      = max 0 (min 7 (round ((8 : ℝ) + cOverlapBias - cInvLnTwo * (Real.log 1 - 0))))
    ∧ 16 ≤ 2 ^ 8 >>> Block_Transform_GetWindowCtrl_Overlap (2 ^ 8) 1 0
    ∧ 2 ^ 8 >>> Block_Transform_GetWindowCtrl_Overlap (2 ^ 8) 1 0 ≤ 2 ^ 8 :=
  C4_overlap_scale 8 (by norm_num) 1 0

/-- Claim C5 (counterexample): on the segment data `cexSegs` with block
size 512, the code's descent stops after two decimations (the analysis
interleave is exhausted: `AnalysisLen = 1`) at `(Decimation, SubBlockSize)
= (0b100, 128)`, although the largest ratio (7, in L) still exceeds `ln 2`,
switching is enabled and the sub-block still exceeds 64 samples; the
descent as claimed would decimate again and yield `(0b1000, 64)`. -/
theorem C5_counterexample :
    Block_Transform_GetWindowCtrl_Descent true cexSegs 8 4 4 512 1
      ≠ spec_WindowCtrl_Descent true cexSegs 8 4 4 512 1 := by
  have e1 : windowCtrlPick cexSegs 4 4 = (0, 7) := by
    unfold windowCtrlPick groupSum segMean pickLargest
    norm_num [Finset.sum_range_succ, cexSegs]
  have e2 : windowCtrlPick cexSegs 4 2 = (0, 7) := by
    unfold windowCtrlPick groupSum segMean pickLargest
    norm_num [Finset.sum_range_succ, cexSegs]
  have e3 : windowCtrlPick cexSegs 4 1 = (0, 7) := by
    unfold windowCtrlPick groupSum segMean pickLargest
    norm_num [Finset.sum_range_succ, cexSegs]
  have e4 : windowCtrlPick cexSegs 4 0 = (0, 0) := by
    unfold windowCtrlPick groupSum segMean pickLargest
    norm_num
  have hcode : Block_Transform_GetWindowCtrl_Descent true cexSegs 8 4 4 512 1 = (4, 128) := by
    norm_num [Block_Transform_GetWindowCtrl_Descent, e1, e2, e3, lnTwoQ, Nat.shiftLeft_eq]
  have hspec : spec_WindowCtrl_Descent true cexSegs 8 4 4 512 1 = (8, 64) := by
    norm_num [spec_WindowCtrl_Descent, e1, e2, e3, e4, lnTwoQ, Nat.shiftLeft_eq]
  rw [hcode, hspec]
  decide

/-- Claim C5 (amended): the descent decimates exactly when the largest
ratio exceeds `ln 2` and lies in L or M, switching is enabled, the
sub-block exceeds 64 samples, AND more than one analysis segment per group
remains; whenever the sub-block size stays within 64 segments-worth of the
analysis length (in particular for every block of at most 256 samples,
where the 64-sample floor is reached first), the extra condition never
fires and the descent agrees with the claimed one step for step. -/
theorem C5_descent_analysis_limited (ws : Bool) (segs : ℕ → ℚ × ℚ) :
    ∀ fuel off A sbs decim,
      (A = 1 ∧ sbs ≤ 64) ∨ (A = 2 ∧ sbs ≤ 128) ∨ (A = 4 ∧ sbs ≤ 256) →
      Block_Transform_GetWindowCtrl_Descent ws segs fuel off A sbs decim
        = spec_WindowCtrl_Descent ws segs fuel off A sbs decim := by
  intro fuel
  induction fuel with
  | zero => intro off A sbs decim _; rfl
  | succ n ih =>
    intro off A sbs decim hA
    simp only [Block_Transform_GetWindowCtrl_Descent, spec_WindowCtrl_Descent]
    rcases hA with ⟨rfl, hs⟩ | ⟨rfl, hs⟩ | ⟨rfl, hs⟩
    · rw [if_neg (show ¬(ws = true ∧ 1 < 1 ∧ 64 < sbs ∧ (windowCtrlPick segs off 1).1 ≠ 2
            ∧ lnTwoQ < (windowCtrlPick segs off 1).2) from
          fun hcc => absurd hcc.2.1 (by norm_num)),
        if_neg (show ¬(ws = true ∧ 64 < sbs ∧ (windowCtrlPick segs off 1).1 ≠ 2
            ∧ lnTwoQ < (windowCtrlPick segs off 1).2) from
          fun hcc => absurd hcc.2.1 (by omega))]
    · by_cases hc : ws = true ∧ 64 < sbs ∧ (windowCtrlPick segs off 2).1 ≠ 2
          ∧ lnTwoQ < (windowCtrlPick segs off 2).2
      · obtain ⟨hw, h64, hp, hr⟩ := hc
        rw [if_pos (show ws = true ∧ 1 < 2 ∧ 64 < sbs ∧ (windowCtrlPick segs off 2).1 ≠ 2
              ∧ lnTwoQ < (windowCtrlPick segs off 2).2 from ⟨hw, by norm_num, h64, hp, hr⟩),
          if_pos (show ws = true ∧ 64 < sbs ∧ (windowCtrlPick segs off 2).1 ≠ 2
              ∧ lnTwoQ < (windowCtrlPick segs off 2).2 from ⟨hw, h64, hp, hr⟩)]
        split_ifs with hp0
        · exact ih off 1 (sbs / 2) (decim <<< 1) (Or.inl ⟨rfl, by omega⟩)
        · exact ih (off + 2) 1 (sbs / 2) (decim <<< 1 ||| 1) (Or.inl ⟨rfl, by omega⟩)
      · rw [if_neg (show ¬(ws = true ∧ 1 < 2 ∧ 64 < sbs ∧ (windowCtrlPick segs off 2).1 ≠ 2
              ∧ lnTwoQ < (windowCtrlPick segs off 2).2) from
            fun hcc => hc ⟨hcc.1, hcc.2.2.1, hcc.2.2.2.1, hcc.2.2.2.2⟩),
          if_neg hc]
    · by_cases hc : ws = true ∧ 64 < sbs ∧ (windowCtrlPick segs off 4).1 ≠ 2
          ∧ lnTwoQ < (windowCtrlPick segs off 4).2
      · obtain ⟨hw, h64, hp, hr⟩ := hc
        rw [if_pos (show ws = true ∧ 1 < 4 ∧ 64 < sbs ∧ (windowCtrlPick segs off 4).1 ≠ 2
              ∧ lnTwoQ < (windowCtrlPick segs off 4).2 from ⟨hw, by norm_num, h64, hp, hr⟩),
          if_pos (show ws = true ∧ 64 < sbs ∧ (windowCtrlPick segs off 4).1 ≠ 2
              ∧ lnTwoQ < (windowCtrlPick segs off 4).2 from ⟨hw, h64, hp, hr⟩)]
        split_ifs with hp0
        · exact ih off 2 (sbs / 2) (decim <<< 1) (Or.inr (Or.inl ⟨rfl, by omega⟩))
        · exact ih (off + 4) 2 (sbs / 2) (decim <<< 1 ||| 1) (Or.inr (Or.inl ⟨rfl, by omega⟩))
      · rw [if_neg (show ¬(ws = true ∧ 1 < 4 ∧ 64 < sbs ∧ (windowCtrlPick segs off 4).1 ≠ 2
              ∧ lnTwoQ < (windowCtrlPick segs off 4).2) from
            fun hcc => hc ⟨hcc.1, hcc.2.2.1, hcc.2.2.2.1, hcc.2.2.2.2⟩),
          if_neg hc]

/-- Witness for C5 (amended) at a 256-sample block on the counterexample
segment data. -/
theorem C5_witness :
    Block_Transform_GetWindowCtrl_Descent true cexSegs 8 4 4 256 1
      = spec_WindowCtrl_Descent true cexSegs 8 4 4 256 1 :=
  C5_descent_analysis_limited true cexSegs 8 4 4 256 1 (Or.inr (Or.inr ⟨rfl, by norm_num⟩))

/-- Witness for C6 at a zero run of 30 coefficients. -/
theorem C6_witness : ((allZeroTokens 30).map decodeZeroToken).sum = 30 :=
  (C6_zero_run_serialization 30).1

lemma energyFxp_ge_one (v : ℝ) : 1 ≤ energyFxp v := by
  unfold energyFxp
  split_ifs with h1 h2
  · exact le_refl _
  · norm_num
  · exact Nat.le_floor (by push_cast; linarith [lt_of_not_le h1])

lemma div29_lt {m : ℕ} (hm : 1 ≤ m) : 29 * m / 32 < m := by
  rw [Nat.div_lt_iff_lt_mul (by norm_num)]
  omega

lemma le_div45 (m : ℕ) : m ≤ 45 * m / 32 := by
  rw [Nat.le_div_iff_mul_le (by norm_num)]
  omega

lemma mainBandWindow_nonempty {n S : ℕ} (h1 : 1 ≤ n) (h2 : n ≤ S) :
    (mainBandWindow n S).Nonempty := by
  unfold mainBandWindow
  rw [Finset.nonempty_Ico]
  exact lt_min (lt_of_lt_of_le (div29_lt h1) (le_div45 n)) (lt_of_lt_of_le (div29_lt h1) h2)

/-- One re-focus step of the sliding critical-band window: removing the
band that left focus and adding the bands that entered turns the window
sum at band `n` into the window sum at band `n+1`. -/
lemma window_step (f : ℕ → ℕ) (S n : ℕ) (hnS : n < S) :
    (if 29 * n / 32 < (29 * n + 29) / 32
      then (∑ i in mainBandWindow n S, f i) - f (29 * n / 32)
      else ∑ i in mainBandWindow n S, f i)
      + ∑ i in Finset.Ico (45 * n / 32) (min ((45 * n + 45) / 32) S), f i
    = ∑ i in mainBandWindow (n + 1) S, f i := by
  unfold mainBandWindow
  have h29 : (29 * n + 29) = 29 * (n + 1) := by ring
  have h45 : (45 * n + 45) = 45 * (n + 1) := by ring
  rw [h29, h45]
  have hlo : 29 * (n + 1) / 32 ≤ min (45 * n / 32) S := by
    have hx : 29 * (n + 1) / 32 < n + 1 := div29_lt (by omega)
    have hy : n ≤ 45 * n / 32 := le_div45 n
    exact le_min (by omega) (by omega)
  have hfirst : (if 29 * n / 32 < 29 * (n + 1) / 32
      then (∑ i in Finset.Ico (29 * n / 32) (min (45 * n / 32) S), f i) - f (29 * n / 32)
      else ∑ i in Finset.Ico (29 * n / 32) (min (45 * n / 32) S), f i)
      = ∑ i in Finset.Ico (29 * (n + 1) / 32) (min (45 * n / 32) S), f i := by
    split_ifs with h
    · have ha1 : 29 * (n + 1) / 32 = 29 * n / 32 + 1 := by omega
      have hlt : 29 * n / 32 < min (45 * n / 32) S := by omega
      rw [Finset.sum_eq_sum_Ico_succ_bot hlt f, ha1, Nat.add_sub_cancel_left]
    · have ha0 : 29 * (n + 1) / 32 = 29 * n / 32 := by omega
      rw [ha0]
  rw [hfirst]
  rcases le_or_lt (45 * n / 32) S with hbS | hbS
  · rw [min_eq_left hbS]
    exact Finset.sum_Ico_consecutive f (by omega) (by omega)
  · rw [min_eq_right (le_of_lt hbS), min_eq_right (by omega : S ≤ 45 * (n + 1) / 32),
      Finset.Ico_eq_empty (by omega : ¬45 * n / 32 < S), Finset.sum_empty, add_zero]

/-- The sliding-window loop invariant: started at band `n` with the window
sums for band `n`, the loop runs to completion (no zero divisor) and
produces one quotient per remaining band. -/
lemma psychoLoopX_run (E ENp : ℕ → ℕ) (hE : ∀ i, 1 ≤ E i) (S : ℕ) :
    ∀ k n, n + k = S →
      ∃ l, psychoLoopX E ENp S k (29 * n) (45 * n)
            (∑ i in mainBandWindow n S, E i * ENp i) (∑ i in mainBandWindow n S, E i)
          = some l ∧ l.length = k := by
  intro k
  induction k with
  | zero => intro n _; exact ⟨[], rfl, rfl⟩
  | succ k ih =>
    intro n hn
    have hnS : n < S := by omega
    have hW := window_step E S n hnS
    have hWn := window_step (fun i => E i * ENp i) S n hnS
    simp only [] at hWn
    have hpos : 0 < ∑ i in mainBandWindow (n + 1) S, E i := by
      obtain ⟨j, hj⟩ := mainBandWindow_nonempty (by omega) (by omega : n + 1 ≤ S)
      exact Finset.sum_pos' (fun i _ => Nat.zero_le _) ⟨j, hj, hE j⟩
    obtain ⟨l, hl, hlen⟩ := ih (n + 1) (by omega)
    refine ⟨(∑ i in mainBandWindow (n + 1) S, E i * ENp i)
        / (∑ i in mainBandWindow (n + 1) S, E i) :: l, ?_, by simp [hlen]⟩
    simp only [psychoLoopX]
    rw [hW, hWn, if_neg (by omega)]
    rw [show 29 * n + 29 = 29 * (n + 1) by ring, show 45 * n + 45 = 45 * (n + 1) by ring, hl]
    rfl

/-- Claim C10 (counterexample): the claim's window formula
`[⌊29n/32⌋, min(⌊45n/32⌋, S))` is empty at band index `n = 0` (both edges
are 0), so it is not non-empty at every band index; the window the loop
actually uses at band `n` is the one at `n+1` (edges are advanced before
the first accumulation). -/
theorem C10_counterexample : ¬∀ n, n < 8 → (mainBandWindow n 8).Nonempty := by
  decide

/-- Claim C10 (amended): every fixed-point `Energy[]` entry is at least 1;
the window in effect at band `n` is `[⌊29(n+1)/32⌋, min(⌊45(n+1)/32⌋, S))`
and is non-empty for every band `n < S`; consequently the accumulated
weight `SumW` is always positive, the division `Sum / SumW` never divides
by zero, and the loop writes all `S` masking entries of the sub-block. -/
theorem C10_psycho_no_div_by_zero (Amp2 : ℕ → ℝ) (Norm LogNorm : ℝ) (S : ℕ) :
    (∀ v : ℝ, 1 ≤ energyFxp v)
    ∧ (∀ n, n < S → (mainBandWindow (n + 1) S).Nonempty)
    ∧ ∃ l, Block_Transform_CalculatePsychoacoustics_SubBlock Amp2 Norm LogNorm S = some l
        ∧ l.length = S := by
  refine ⟨energyFxp_ge_one, fun n hn => mainBandWindow_nonempty (by omega) (by omega), ?_⟩
  unfold Block_Transform_CalculatePsychoacoustics_SubBlock
  obtain ⟨l, hl, hlen⟩ := psychoLoopX_run (fun i => energyFxp (Real.sqrt (Amp2 i * Norm) * 2 ^ 16))
    (fun i => energyNpFxp (Amp2 i * Norm) LogNorm)
    (fun i => energyFxp_ge_one _) S S 0 (by omega)
  have h0 : mainBandWindow 0 S = ∅ := by
    unfold mainBandWindow
    simp
  rw [h0, Finset.sum_empty, Finset.sum_empty] at hl
  simp only [Nat.mul_zero] at hl
  exact ⟨l, hl, hlen⟩

/-- Witness for C10 on a concrete 4-band sub-block of constant unit
energy. -/
theorem C10_witness :
    (∀ v : ℝ, 1 ≤ energyFxp v)
    ∧ (∀ n, n < 4 → (mainBandWindow (n + 1) 4).Nonempty)
    ∧ ∃ l, Block_Transform_CalculatePsychoacoustics_SubBlock (fun _ => 1) 1 1 4 = some l
        ∧ l.length = 4 :=
  C10_psycho_no_div_by_zero (fun _ => 1) 1 1 4

lemma zeroRunEnc_len_le (zR : ℕ) :
    ((zeroRunEnc zR).1.map List.length).sum ≤ ((zeroRunEnc zR).1.map decodeZeroToken).sum := by
  apply List.sum_le_sum
  intro t ht
  rcases (zeroRunEnc_spec zR).2.2 t ht with ⟨x, _, _, rfl, _, hlo, _⟩
    | ⟨a, y, _, _, _, rfl, _, hlo, _⟩
  · have hl : ([0x8, x] : List ℕ).length = 2 := rfl
    omega
  · have hl : ([0x8, a, y] : List ℕ).length = 3 := rfl
    omega

lemma gapNibbles_le (zR : ℕ) : gapNibbles zR ≤ zR + 1 := by
  have h := (zeroRunEnc_spec zR).2.1
  have hlen := zeroRunEnc_len_le zR
  unfold gapNibbles
  omega

lemma segNibbles_le (endPos : ℕ) : ∀ (next : ℕ) (ks : List ℕ),
    ks.Sorted (· < ·) → (∀ t ∈ ks, next ≤ t ∧ t < endPos) →
    segNibbles endPos next ks ≤ (endPos - next) + 2 := by
  intro next ks
  induction ks generalizing next with
  | nil =>
    intro _ _
    show stopNibbles (endPos - next) ≤ endPos - next + 2
    unfold stopNibbles
    split_ifs <;> omega
  | cons t ks ih =>
    intro hsort hmem
    obtain ⟨hnt, hte⟩ := hmem t (List.mem_cons_self _ _)
    have hrec := ih (t + 1) (List.sorted_cons.1 hsort).2
      (fun u hu => ⟨(List.sorted_cons.1 hsort).1 u hu, (hmem u (List.mem_cons_of_mem _ hu)).2⟩)
    have hgap := gapNibbles_le (t - next)
    show gapNibbles (t - next) + segNibbles endPos (t + 1) ks ≤ endPos - next + 2
    omega

lemma SegsWF_le_base : ∀ (segs : List (ℕ × ℕ)) (lb : ℕ),
    SegsWF lb segs → ∀ s ∈ segs, lb ≤ s.1 := by
  intro segs
  induction segs with
  | nil => intro lb _ s hs; cases hs
  | cons s' rest ih =>
    intro lb hwf s hs
    obtain ⟨h1, h2⟩ := hwf
    rcases List.mem_cons.1 hs with rfl | hs'
    · exact h1
    · have := ih (s'.1 + s'.2) h2 s hs'
      omega

lemma usedSegmentsAux_wf : ∀ (l : List (ℕ × Bool)) (pos : ℕ),
    (∀ lb, lb ≤ pos → SegsWF lb (usedSegmentsAux l pos none))
    ∧ (∀ lb b u, lb ≤ b → b + u = pos →
        SegsWF lb (usedSegmentsAux l pos (some (b, u)))) := by
  intro l
  induction l with
  | nil => exact fun pos => ⟨fun lb _ => trivial, fun lb b u hb _ => ⟨hb, trivial⟩⟩
  | cons hd rest ih =>
    intro pos
    obtain ⟨w, used⟩ := hd
    cases used
    · refine ⟨fun lb hlb => ?_, fun lb b u hb hpos => ?_⟩
      · exact (ih (pos + w)).1 lb (by omega)
      · exact ⟨hb, (ih (pos + w)).1 (b + u) (by omega)⟩
    · refine ⟨fun lb hlb => ?_, fun lb b u hb hpos => ?_⟩
      · exact (ih (pos + w)).2 lb pos w (by omega) rfl
      · exact (ih (pos + w)).2 lb b (u + w) hb (by omega)

lemma usedSegmentsAux_width : ∀ (l : List (ℕ × Bool)) (pos : ℕ),
    (((usedSegmentsAux l pos none).map Prod.snd).sum ≤ (l.map Prod.fst).sum)
    ∧ ∀ b u, ((usedSegmentsAux l pos (some (b, u))).map Prod.snd).sum
        ≤ (l.map Prod.fst).sum + u := by
  intro l
  induction l with
  | nil =>
    intro pos
    refine ⟨Nat.zero_le _, fun b u => ?_⟩
    show u + 0 ≤ 0 + u
    omega
  | cons hd rest ih =>
    intro pos
    obtain ⟨w, used⟩ := hd
    cases used
    · refine ⟨?_, fun b u => ?_⟩
      · have := (ih (pos + w)).1
        show ((usedSegmentsAux rest (pos + w) none).map Prod.snd).sum
          ≤ w + (rest.map Prod.fst).sum
        omega
      · have := (ih (pos + w)).1
        show u + ((usedSegmentsAux rest (pos + w) none).map Prod.snd).sum
          ≤ w + (rest.map Prod.fst).sum + u
        omega
    · refine ⟨?_, fun b u => ?_⟩
      · have := (ih (pos + w)).2 pos w
        show ((usedSegmentsAux rest (pos + w) (some (pos, w))).map Prod.snd).sum
          ≤ w + (rest.map Prod.fst).sum
        omega
      · have := (ih (pos + w)).2 b (u + w)
        show ((usedSegmentsAux rest (pos + w) (some (b, u + w))).map Prod.snd).sum
          ≤ w + (rest.map Prod.fst).sum + u
        omega

lemma usedSegmentsAux_length : ∀ (l : List (ℕ × Bool)) (pos : ℕ),
    ((usedSegmentsAux l pos none).length ≤ l.length)
    ∧ ∀ b u, (usedSegmentsAux l pos (some (b, u))).length ≤ l.length + 1 := by
  intro l
  induction l with
  | nil => exact fun pos => ⟨Nat.zero_le _, fun b u => le_refl _⟩
  | cons hd rest ih =>
    intro pos
    obtain ⟨w, used⟩ := hd
    cases used
    · refine ⟨?_, fun b u => ?_⟩
      · have := (ih (pos + w)).1
        show (usedSegmentsAux rest (pos + w) none).length ≤ rest.length + 1
        omega
      · have := (ih (pos + w)).1
        show (usedSegmentsAux rest (pos + w) none).length + 1 ≤ rest.length + 1 + 1
        omega
    · refine ⟨?_, fun b u => ?_⟩
      · have := (ih (pos + w)).2 pos w
        show (usedSegmentsAux rest (pos + w) (some (pos, w))).length ≤ rest.length + 1
        omega
      · have := (ih (pos + w)).2 b (u + w)
        show (usedSegmentsAux rest (pos + w) (some (b, u + w))).length ≤ rest.length + 1 + 1
        omega

lemma mem_dropWhile_ge (c : ℕ) : ∀ (l : List ℕ), l.Sorted (· < ·) →
    ∀ k ∈ l.dropWhile (fun t => t < c), c ≤ k := by
  intro l
  induction l with
  | nil => intro _ k hk; simp at hk
  | cons a l ih =>
    intro hsort k hk
    by_cases ha : a < c
    · rw [List.dropWhile_cons, if_pos (by simpa using ha)] at hk
      exact ih (List.sorted_cons.1 hsort).2 k hk
    · rw [List.dropWhile_cons, if_neg (by simpa using ha)] at hk
      rcases List.mem_cons.1 hk with rfl | hk'
      · omega
      · have := (List.sorted_cons.1 hsort).1 k hk'
        omega

lemma chanSegsNibbles_le : ∀ (segs : List (ℕ × ℕ)) (lb : ℕ) (keys : List ℕ),
    SegsWF lb segs → keys.Sorted (· < ·) →
    (∀ k ∈ keys, ∃ s ∈ segs, s.1 ≤ k ∧ k < s.1 + s.2) →
    chanSegsNibbles segs keys ≤ (segs.map (fun s => s.2 + 2)).sum := by
  intro segs
  induction segs with
  | nil => intro lb keys _ _ _; exact le_refl _
  | cons s rest ih =>
    intro lb keys hwf hsort hin
    obtain ⟨b, w⟩ := s
    obtain ⟨hlb, hwf'⟩ := hwf
    have hlater : ∀ s' ∈ rest, b + w ≤ s'.1 := SegsWF_le_base rest (b + w) hwf'
    have htakemem : ∀ k ∈ keys.takeWhile (fun t => t < b + w), b ≤ k ∧ k < b + w := by
      intro k hk
      have hklt : k < b + w := by simpa using List.mem_takeWhile_imp hk
      have hkin : k ∈ keys := (List.takeWhile_sublist _).mem hk
      obtain ⟨s', hs', hks1, hks2⟩ := hin k hkin
      rcases List.mem_cons.1 hs' with rfl | hs''
      · exact ⟨hks1, hklt⟩
      · have := hlater s' hs''
        omega
    have hseg : segNibbles (b + w) b (keys.takeWhile (fun t => t < b + w)) ≤ w + 2 := by
      have := segNibbles_le (b + w) b (keys.takeWhile (fun t => t < b + w))
        (List.Pairwise.sublist (List.takeWhile_sublist _) hsort)
        (fun u hu => ⟨(htakemem u hu).1, (htakemem u hu).2⟩)
      omega
    have hdropmem : ∀ k ∈ keys.dropWhile (fun t => t < b + w),
        ∃ s' ∈ rest, s'.1 ≤ k ∧ k < s'.1 + s'.2 := by
      intro k hk
      have hkge : b + w ≤ k := mem_dropWhile_ge (b + w) keys hsort k hk
      have hkin : k ∈ keys := (List.dropWhile_sublist _).mem hk
      obtain ⟨s', hs', hks1, hks2⟩ := hin k hkin
      rcases List.mem_cons.1 hs' with rfl | hs''
      · omega
      · exact ⟨s', hs'', hks1, hks2⟩
    have hrec := ih (b + w) (keys.dropWhile (fun t => t < b + w)) hwf'
      (List.Pairwise.sublist (List.dropWhile_sublist _) hsort) hdropmem
    show segNibbles (b + w) b (keys.takeWhile (fun t => t < b + w))
        + chanSegsNibbles rest (keys.dropWhile (fun t => t < b + w))
      ≤ (w + 2) + (rest.map (fun s => s.2 + 2)).sum
    omega

lemma sum_map_add_two (l : List (ℕ × ℕ)) :
    (l.map (fun s => s.2 + 2)).sum = (l.map Prod.snd).sum + 2 * l.length := by
  induction l with
  | nil => rfl
  | cons s rest ih =>
    simp only [List.map_cons, List.sum_cons, List.length_cons, ih]
    ring

lemma zip_fst_sum_le (l1 : List ℕ) : ∀ l2 : List Bool,
    ((l1.zip l2).map Prod.fst).sum ≤ l1.sum := by
  induction l1 with
  | nil => intro l2; simp
  | cons w rest ih =>
    intro l2
    cases l2 with
    | nil => simp
    | cons b l2 =>
      have := ih l2
      simp only [List.zip_cons_cons, List.map_cons, List.sum_cons]
      omega

lemma chanNibbles_le (bw : List ℕ) (used : List Bool) (keys : List ℕ)
    (hsort : keys.Sorted (· < ·))
    (hin : ∀ k ∈ keys, ∃ s ∈ usedSegmentsAux (bw.zip used) 0 none, s.1 ≤ k ∧ k < s.1 + s.2) :
    chanNibbles bw used keys ≤ 3 * bw.length + bw.sum := by
  unfold chanNibbles
  have hwf := (usedSegmentsAux_wf (bw.zip used) 0).1 0 (le_refl 0)
  have hc := chanSegsNibbles_le (usedSegmentsAux (bw.zip used) 0 none) 0 keys hwf hsort hin
  have hsplit := sum_map_add_two (usedSegmentsAux (bw.zip used) 0 none)
  have hwidth := (usedSegmentsAux_width (bw.zip used) 0).1
  have hlen := (usedSegmentsAux_length (bw.zip used) 0).1
  have hfst := zip_fst_sum_le bw used
  have hziplen : (bw.zip used).length ≤ bw.length := by
    rw [List.length_zip]
    exact min_le_left _ _
  omega

lemma sum_map_le_length_mul {α : Type} (l : List α) (f : α → ℕ) (B : ℕ)
    (h : ∀ x ∈ l, f x ≤ B) : (l.map f).sum ≤ l.length * B := by
  induction l with
  | nil => simp
  | cons x rest ih =>
    simp only [List.map_cons, List.sum_cons, List.length_cons]
    have h1 := h x (List.mem_cons_self _ _)
    have h2 := ih (fun y hy => h y (List.mem_cons_of_mem _ hy))
    calc f x + (rest.map f).sum ≤ B + rest.length * B := by omega
      _ = (rest.length + 1) * B := by ring

/-- Claim C1: for every encoded block with quantizer bandwidths summing to
the block size `N ≥ 2` (each band non-empty), channel key lists sorted by
band and lying in used quantizer segments, the bit count of `Block_Encode`
plus the 8-bit window-control header is at most `8 + C·(12 + 20·(N−1))`
(the bound documented at `ULC_EncodeBlock_CBR`). -/
theorem C1_block_bit_bound (N : ℕ) (bw : List ℕ) (chans : List (List Bool × List ℕ))
    (hN : 2 ≤ N) (hbw1 : ∀ w ∈ bw, 1 ≤ w) (hbwsum : bw.sum = N)
    (hch : ∀ c ∈ chans, c.2.Sorted (· < ·)
      ∧ ∀ k ∈ c.2, ∃ s ∈ usedSegmentsAux (bw.zip c.1) 0 none, s.1 ≤ k ∧ k < s.1 + s.2) :
    8 + Block_Encode_Size bw chans ≤ 8 + chans.length * (12 + 20 * (N - 1)) := by
  have hq : bw.length ≤ N := by
    have := List.length_le_sum_of_one_le bw hbw1
    omega
  have hper : ∀ c ∈ chans, chanNibbles bw c.1 c.2 ≤ 3 * bw.length + N := by
    intro c hc
    have := chanNibbles_le bw c.1 c.2 (hch c hc).1 (hch c hc).2
    omega
  unfold Block_Encode_Size
  have hsum := sum_map_le_length_mul chans (fun c => chanNibbles bw c.1 c.2)
    (3 * bw.length + N) hper
  calc 8 + 4 * (chans.map (fun c => chanNibbles bw c.1 c.2)).sum
      ≤ 8 + 4 * (chans.length * (3 * bw.length + N)) := by omega
    _ = 8 + chans.length * (4 * (3 * bw.length + N)) := by ring
    _ ≤ 8 + chans.length * (12 + 20 * (N - 1)) := by
        have : 4 * (3 * bw.length + N) ≤ 12 + 20 * (N - 1) := by omega
        have := Nat.mul_le_mul_left chans.length this
        omega

/-- Witness for C1: one channel, one used quantizer band of width 4
(`N = 4`), a single key at band 0. -/
theorem C1_witness :
    8 + Block_Encode_Size [4] [([true], [0])] ≤ 8 + ([([true], [0])] : List (List Bool × List ℕ)).length * (12 + 20 * (4 - 1)) :=
  C1_block_bit_bound 4 [4] [([true], [0])] (by norm_num) (by decide) (by decide)
    (by
      intro c hc
      rcases List.mem_singleton.1 hc with rfl
      exact ⟨by decide, by decide⟩)

/-- Claim C2 (amended): with psychoacoustics enabled the importance score
equals `exp(2·(3.455·ℓ − 2.533·m) + 16·flat²·(flat² − 1) + analysis_power)`
(the flatness term is added to the Neper value before the whole value is
doubled), with 3.455 and 2.533 standing for the code constants
`0x1.BA18AAp1f` and `0x1.443438p1f`. -/
theorem C2_insert_keys_score (ValNp Mask Flat AnalysisPowerNp : ℝ) :
    Block_Transform_InsertKeys_Val ValNp Mask Flat AnalysisPowerNp
      = Real.exp (2 * (cMaskSelf * ValNp - cMaskOther * Mask)
          + 16 * (Flat * Flat) * (Flat * Flat - 1) + AnalysisPowerNp) := by
  unfold Block_Transform_InsertKeys_Val
  rw [Real.exp_eq_exp]
  ring

end ULC
